import Mathlib

/-!
# Verification of the JAX core PRNG subsystem (`jax/random.py`)

Shallow embedding of the counter-based Threefry-2x32 PRNG and the
derived samplers.  32-bit (resp. 64-bit) unsigned words are modeled as
`Nat` with explicit reduction modulo `2^32` (resp. `2^64`) wherever the
hardware arithmetic wraps; signed dtype values are modeled as `Int`
with explicit two's-complement wrapping.  Arrays are modeled as flat
`List`s of their elements (the reshape steps of the source only move
elements between shapes of equal total size, so shape claims become
length claims).  Vectorized elementwise array operations are modeled
elementwise.
-/

set_option maxRecDepth 4096

namespace JaxRandom

/-- The uint32 modulus `2^32`. -/
def W32 : Nat := 2 ^ 32

/-- Wrapping uint32 addition, from the `+` on uint32 arrays used
throughout `threefry_2x32`. -/
def add32 (a b : Nat) : Nat := (a + b) % W32

/-- The rotation `_rotate_left` produced by `_make_rotate_left(uint32)`:
`(x << d) | shift_right_logical(x, 32 - d)`, the left shift wrapping
modulo `2^32`. -/
def rotl32 (x d : Nat) : Nat := ((x <<< d) % W32) ||| (x >>> (32 - d))

/-- One mixing round (`apply_round` inside `threefry_2x32`):
`v0 = v0 + v1; v1 = rotate_left(v1, rot); v1 = v0 ^ v1`. -/
def applyRound (v : Nat × Nat) (rot : Nat) : Nat × Nat :=
  let v0 := add32 v.1 v.2
  (v0, v0 ^^^ rotl32 v.2 rot)

/-- The rotation-constant table `rotations = [13, 15, 26, 6, 17, 29, 16, 24]`. -/
def rotations : List Nat := [13, 15, 26, 6, 17, 29, 16, 24]

/-- The Threefry key-schedule constant `0x1BD11BDA`. -/
def threefryConst : Nat := 0x1BD11BDA

/-- The full 20-round `threefry_2x32` mix of one counter pair
`(x0, x1)` with key words `(k1, k2)`, transliterated from the unrolled
body of `threefry_2x32` (lines 125-154 of `jax/random.py`). -/
def threefryPair (k1 k2 : Nat) (x : Nat × Nat) : Nat × Nat :=
  let ks0 := k1
  let ks1 := k2
  let ks2 := (k1 ^^^ k2) ^^^ threefryConst
  let x := (add32 x.1 ks0, add32 x.2 ks1)
  let x := (rotations.take 4).foldl applyRound x
  let x := (add32 x.1 ks1, add32 (add32 x.2 ks2) 1)
  let x := (rotations.drop 4).foldl applyRound x
  let x := (add32 x.1 ks2, add32 (add32 x.2 ks0) 2)
  let x := (rotations.take 4).foldl applyRound x
  let x := (add32 x.1 ks0, add32 (add32 x.2 ks1) 3)
  let x := (rotations.drop 4).foldl applyRound x
  let x := (add32 x.1 ks1, add32 (add32 x.2 ks2) 4)
  let x := (rotations.take 4).foldl applyRound x
  (add32 x.1 ks2, add32 (add32 x.2 ks0) 5)

/-- Elementwise application of the pair mix to the two counter halves,
followed by `np.concatenate(x)`.  The source applies each array
operation to whole halves at once; since every operation is
elementwise, this is modeled by zipping the halves. -/
def threefryHalves (key : Nat × Nat) (x0 x1 : List Nat) : List Nat :=
  let pairs := (x0.zip x1).map (threefryPair key.1 key.2)
  pairs.map Prod.fst ++ pairs.map Prod.snd

/-- `threefry_2x32(keypair, count)` on a flattened counter array:
split the counter into two halves, padding with one zero word when the
element count is odd and dropping the extra output word at the end
(lines 119-123 and 158 of `jax/random.py`). -/
def threefry2x32 (key : Nat × Nat) (count : List Nat) : List Nat :=
  if count.length % 2 = 1 then
    let padded := count ++ [0]
    let n := padded.length / 2
    (threefryHalves key (padded.take n) (padded.drop n)).dropLast
  else
    let n := count.length / 2
    threefryHalves key (count.take n) (count.drop n)

/-!
## The round schedule of spec section 4.1, written as the spec words it

Five groups of four rounds; group `g` (numbered 1..5) uses rotation
constants `{13,15,26,6}` when `g` is odd and `{17,29,16,24}` when `g`
is even, and is followed by injecting the round-robin key pair
`ks[g % 3]` into `x0` and `ks[(g+1) % 3] + g` into `x1`.
-/

/-- Rotation-constant group used by round group `g`. -/
def rotationsGroup (g : Nat) : List Nat :=
  if g % 2 = 1 then [13, 15, 26, 6] else [17, 29, 16, 24]

/-- Key injection after round group `g`: round-robin key pair with the
group counter added into `x1`'s injected key. -/
def injectKeys (ks : List Nat) (g : Nat) (x : Nat × Nat) : Nat × Nat :=
  (add32 x.1 (ks.getD (g % 3) 0), add32 (add32 x.2 (ks.getD ((g + 1) % 3) 0)) g)

/-- One group of the spec schedule: four mixing rounds then the key
injection. -/
def specGroup (ks : List Nat) (x : Nat × Nat) (g : Nat) : Nat × Nat :=
  injectKeys ks g ((rotationsGroup g).foldl applyRound x)

/-- The 20-round schedule exactly as spec section 4.1 describes it:
round keys `ks0 = k0`, `ks1 = k1`, `ks2 = k0 XOR k1 XOR 0x1BD11BDA`,
initial injection `x0 += ks0, x1 += ks1`, then five round groups. -/
def threefrySpecPair (k1 k2 : Nat) (x : Nat × Nat) : Nat × Nat :=
  let ks := [k1, k2, (k1 ^^^ k2) ^^^ threefryConst]
  [1, 2, 3, 4, 5].foldl (specGroup ks) (add32 x.1 k1, add32 x.2 k2)

/-- The spec-schedule hash lifted to a flattened counter array with the
same split/pad/concatenate framing as the source. -/
def threefrySpecList (key : Nat × Nat) (count : List Nat) : List Nat :=
  if count.length % 2 = 1 then
    let padded := count ++ [0]
    let n := padded.length / 2
    let x0 := padded.take n
    let x1 := padded.drop n
    let pairs := (x0.zip x1).map (threefrySpecPair key.1 key.2)
    (pairs.map Prod.fst ++ pairs.map Prod.snd).dropLast
  else
    let n := count.length / 2
    let x0 := count.take n
    let x1 := count.drop n
    let pairs := (x0.zip x1).map (threefrySpecPair key.1 key.2)
    pairs.map Prod.fst ++ pairs.map Prod.snd

/-- C1: `threefry_2x32` computes exactly the 20-round Threefry-2x32
schedule of spec section 4.1 — round keys `ks0 = k0`, `ks1 = k1`,
`ks2 = k0 XOR k1 XOR 0x1BD11BDA`, initial `x0 += ks0, x1 += ks1`,
five groups of four rounds alternating the rotation groups
`{13,15,26,6}` and `{17,29,16,24}`, each round doing
`x0 = x0 + x1 (mod 2^32)` then `x1 = rotate_left(x1, r) XOR x0`,
with the round-robin key pair injected after each group and the
counters 1..5 added into `x1`'s injected key.  In particular
`threefry_2x32` at key words `(0,0)` and counter `[0,1,2,3]` equals
the direct evaluation of that round specification. -/
theorem threefry2x32_matches_round_schedule :
    (∀ k1 k2 x, threefryPair k1 k2 x = threefrySpecPair k1 k2 x) ∧
    threefry2x32 (0, 0) [0, 1, 2, 3] = threefrySpecList (0, 0) [0, 1, 2, 3] :=
  ⟨fun _ _ _ => rfl, rfl⟩

/-- Helper: the hash output has exactly as many words as the counter
array, in both the odd and the even case. -/
theorem threefry2x32_length (key : Nat × Nat) (count : List Nat) :
    (threefry2x32 key count).length = count.length := by
  by_cases h : count.length % 2 = 1
  · simp only [threefry2x32, threefryHalves, if_pos h]
    simp only [List.length_dropLast, List.length_append, List.length_map,
      List.length_zip, List.length_take, List.length_drop,
      List.length_cons, List.length_nil]
    omega
  · simp only [threefry2x32, threefryHalves, if_neg h]
    simp only [List.length_append, List.length_map,
      List.length_zip, List.length_take, List.length_drop]
    omega

/-- C2: `threefry_2x32` returns an array of exactly the same total
size as the counter array; in the odd case one zero word is appended
before hashing and the extra output word is dropped, so that the odd
result is the even result of the zero-padded counter with its last
word removed. -/
theorem threefry2x32_preserves_size :
    (∀ key count, (threefry2x32 key count).length = count.length) ∧
    (∀ key count, count.length % 2 = 1 →
      threefry2x32 key count = (threefry2x32 key (count ++ [0])).dropLast) := by
  refine ⟨threefry2x32_length, ?_⟩
  intro key count h
  have h2 : ¬ (count ++ [0]).length % 2 = 1 := by
    simp only [List.length_append, List.length_cons, List.length_nil]
    omega
  simp only [threefry2x32, threefryHalves, if_pos h, if_neg h2]

/-- C2 witness: the odd-size clause at the concrete counter `[5]`. -/
theorem threefry2x32_preserves_size_witness :
    ([5] : List Nat).length % 2 = 1 ∧
    threefry2x32 (1, 2) [5] = (threefry2x32 (1, 2) [5, 0]).dropLast :=
  ⟨by decide, threefry2x32_preserves_size.2 (1, 2) [5] (by decide)⟩

/-!
## Key management: `PRNGKey`, `split`, `fold_in`
-/

/-- `PRNGKey(seed)` for a non-negative integer seed: the pair
`[(seed >> 32) & 0xFFFFFFFF, seed & 0xFFFFFFFF]` (negative seeds use
arithmetic shifts in the source and are outside the claims). -/
def PRNGKeyM (seed : Nat) : List Nat :=
  [(seed >>> 32) &&& 0xFFFFFFFF, seed &&& 0xFFFFFFFF]

/-- Regrouping a flat word list into consecutive pairs: the
`lax.reshape(..., (num, 2))` of `_split`. -/
def toPairs : List Nat → List (Nat × Nat)
  | [] => []
  | [_] => []
  | a :: b :: t => (a, b) :: toPairs t

/-- `_split(key, num)`: hash the counter `0 .. 2*num-1` with the key
and regroup the `2*num` output words into `num` pairs. -/
def splitKey (key : Nat × Nat) (num : Nat) : List (Nat × Nat) :=
  toPairs (threefry2x32 key (List.range (2 * num)))

/-- `_fold_in(key, data)`: hash `PRNGKey(data)` as the counter using
`key` as the key words. -/
def foldIn (key : Nat × Nat) (data : Nat) : List Nat :=
  threefry2x32 key (PRNGKeyM data)

theorem toPairs_length : ∀ l : List Nat, (toPairs l).length = l.length / 2
  | [] => rfl
  | [_] => by simp [toPairs]
  | _ :: _ :: t => by
    simp only [toPairs, List.length_cons, toPairs_length t]
    omega

/-- C3: `split` and `fold_in` are pure deterministic functions: two
evaluations on the same arguments agree bit for bit (the embedding is
a pure function, so this is definitional); `split(k, num)` is exactly
the reshape of `threefry_2x32(k, [0 .. 2*num-1])` into `num` pairs
(and has `num` rows); `fold_in(k, d)` is exactly
`threefry_2x32(k, PRNGKey(d))`. -/
theorem split_fold_in_deterministic :
    (∀ key num, splitKey key num = splitKey key num ∧
      (splitKey key num).length = num ∧
      splitKey key num = toPairs (threefry2x32 key (List.range (2 * num)))) ∧
    (∀ key data, foldIn key data = foldIn key data ∧
      foldIn key data = threefry2x32 key (PRNGKeyM data)) := by
  refine ⟨fun key num => ⟨rfl, ?_, rfl⟩, fun key data => ⟨rfl, rfl⟩⟩
  rw [splitKey, toPairs_length, threefry2x32_length, List.length_range]
  omega

/-!
## `_random_bits` over explicit array values

For the boundary validation claims the key argument must carry its
shape and dtype, so keys are modeled as explicit array values.
-/

/-- Element dtypes that appear in the PRNG subsystem. -/
inductive DType where
  | uint32
  | uint64
  deriving DecidableEq, Repr

/-- An array value: a shape, a dtype, and the flat element data. -/
structure Arr where
  shape : List Nat
  dtype : DType
  data : List Nat
  deriving DecidableEq, Repr

/-- `_is_prng_key`: the key must have shape `(2,)` and dtype uint32. -/
def isPrngKey (key : Arr) : Bool :=
  decide (key.shape = [2] ∧ key.dtype = DType.uint32)

/-- The body of `_random_bits` after validation, for a key given as
its two words: build the counter `0 .. max_count-1`, hash it, and for
`bit_width == 64` split the hash output into two halves and combine
them as `high << 32 | low` (word `i` of the first half with word `i`
of the second half, via `np.split(bits, 2)`).  The count guard of
line 206 (`max_count >= onp.iinfo(onp.uint32).max`) raises; errors are
modeled as `Except.error`. -/
def randomBitsCore (key : Nat × Nat) (bitWidth : Nat) (numel : Nat) :
    Except String (List Nat) :=
  let maxCount := (bitWidth / 32) * numel
  if 2 ^ 32 - 1 ≤ maxCount then
    .error "requesting more random bits than a single call provides."
  else
    let bits := threefry2x32 key (List.range maxCount)
    if bitWidth = 64 then
      let n := maxCount / 2
      .ok (((bits.take n).zip (bits.drop n)).map fun p => (p.1 <<< 32) ||| p.2)
    else
      .ok bits

/-- `_random_bits(key, bit_width, shape)`: validate the key and the
bit width, then produce `prod(shape)` words of the requested width.
The flat output list of length `prod(shape)` models the array reshaped
to `shape`. -/
def randomBits (key : Arr) (bitWidth : Nat) (shape : List Nat) :
    Except String (List Nat) :=
  if ¬ (key.shape = [2] ∧ key.dtype = DType.uint32) then
    .error "_random_bits got invalid prng key."
  else if ¬ (bitWidth = 32 ∨ bitWidth = 64) then
    .error "requires 32- or 64-bit field width."
  else
    randomBitsCore (key.data.getD 0 0, key.data.getD 1 0) bitWidth shape.prod

/-- A valid zero key, used for concrete instances. -/
def zeroKeyArr : Arr := ⟨[2], DType.uint32, [0, 0]⟩

/-- C4 counterexample: the claim fails on the code in two places.
First, at `max_count = 2^32 - 1` — which does not *exceed* the maximum
representable 32-bit unsigned count — the code still raises, because
its guard is `max_count >= uint32_max`.  Second, for `bit_width = 64`
the code does not pair *consecutive* words: it pairs word `i` of the
first half of the hash stream with word `i` of the second half. -/
theorem random_bits_claimed_boundary_false :
    (randomBits zeroKeyArr 32 [2 ^ 32 - 1] =
      .error "requesting more random bits than a single call provides." ∧
      ¬ (2 ^ 32 - 1 > 2 ^ 32 - 1)) ∧
    ((randomBits zeroKeyArr 64 [2]).toOption ≠
      some [((threefry2x32 (0, 0) [0, 1, 2, 3]).getD 0 0 <<< 32) |||
              (threefry2x32 (0, 0) [0, 1, 2, 3]).getD 1 0,
            ((threefry2x32 (0, 0) [0, 1, 2, 3]).getD 2 0 <<< 32) |||
              (threefry2x32 (0, 0) [0, 1, 2, 3]).getD 3 0]) := by
  refine ⟨⟨?_, by omega⟩, by decide⟩
  have h : 2 ^ 32 - 1 ≤ (32 / 32) * ([2 ^ 32 - 1] : List Nat).prod := by
    simp [List.prod_cons]
  rw [randomBits, if_neg (by decide), if_neg (by decide), randomBitsCore]
  rw [if_pos h]

/-- C4 (amended): for a valid key and `bit_width` in `{32, 64}`,
`_random_bits` fails iff `max_count = (bit_width/32) * prod(shape)` is
at least (not strictly above) the maximum representable 32-bit
unsigned count `2^32 - 1`; otherwise it returns `prod(shape)` words
obtained by hashing the counter `0 .. max_count-1`, where for
`bit_width = 64` word `i` of the first half of the hash stream is the
high word and word `i` of the second half the low word. -/
theorem random_bits_spec (key : Arr) (bitWidth : Nat) (shape : List Nat)
    (hkey : key.shape = [2] ∧ key.dtype = DType.uint32)
    (hbw : bitWidth = 32 ∨ bitWidth = 64) :
    ((∃ e, randomBits key bitWidth shape = .error e) ↔
      2 ^ 32 - 1 ≤ (bitWidth / 32) * shape.prod) ∧
    ((bitWidth / 32) * shape.prod < 2 ^ 32 - 1 →
      ∃ out, randomBits key bitWidth shape = .ok out ∧
        out.length = shape.prod ∧
        (bitWidth = 32 →
          out = threefry2x32 (key.data.getD 0 0, key.data.getD 1 0)
            (List.range shape.prod)) ∧
        (bitWidth = 64 →
          out = (let bits := threefry2x32 (key.data.getD 0 0, key.data.getD 1 0)
                   (List.range (2 * shape.prod))
                 ((bits.take shape.prod).zip (bits.drop shape.prod)).map
                   fun p => (p.1 <<< 32) ||| p.2))) := by
  have hv : ¬ ¬ (key.shape = [2] ∧ key.dtype = DType.uint32) := not_not_intro hkey
  have hb : ¬ ¬ (bitWidth = 32 ∨ bitWidth = 64) := not_not_intro hbw
  rw [randomBits, if_neg hv, if_neg hb]
  rcases hbw with h | h <;> subst h
  · simp only [randomBitsCore, Nat.reduceDiv, one_mul, reduceIte]
    constructor
    · constructor
      · intro ⟨e, he⟩
        by_contra hlt
        rw [if_neg hlt] at he
        exact Except.noConfusion he
      · intro hge
        exact ⟨_, by rw [if_pos hge]⟩
    · intro hlt
      rw [if_neg (by omega)]
      refine ⟨_, rfl, ?_, fun _ => rfl, fun h => by omega⟩
      rw [threefry2x32_length, List.length_range]
  · simp only [randomBitsCore, Nat.reduceDiv, reduceIte]
    constructor
    · constructor
      · intro ⟨e, he⟩
        by_contra hlt
        rw [if_neg hlt] at he
        exact Except.noConfusion he
      · intro hge
        exact ⟨_, by rw [if_pos hge]⟩
    · intro hlt
      rw [if_neg (by omega)]
      have hn : 2 * shape.prod / 2 = shape.prod := by omega
      rw [hn]
      refine ⟨_, rfl, ?_, fun h => by omega, fun _ => rfl⟩
      simp only [List.length_map, List.length_zip, List.length_take,
        List.length_drop, threefry2x32_length, List.length_range]
      omega

/-- C4 witness: a successful 32-bit draw of two words from the zero
key, and a failing draw at the `max_count = 2^32 - 1` boundary. -/
theorem random_bits_spec_witness :
    ∃ out, randomBits zeroKeyArr 32 [2] = .ok out ∧ out.length = 2 := by
  obtain ⟨out, h1, h2, -, -⟩ :=
    (random_bits_spec zeroKeyArr 32 [2] ⟨rfl, rfl⟩ (Or.inl rfl)).2 (by norm_num)
  exact ⟨out, h1, h2⟩

/-- C10: `_random_bits` validates at the boundary: any key that is not
an array of shape `(2,)` and dtype uint32 yields the TypeError-style
invalid-key failure, and for a well-formed key any bit width other
than 32 or 64 yields the field-width failure; both are raised before
any hashing. -/
theorem random_bits_validates_inputs :
    ∀ (key : Arr) (bitWidth : Nat) (shape : List Nat),
      (¬ (key.shape = [2] ∧ key.dtype = DType.uint32) →
        randomBits key bitWidth shape = .error "_random_bits got invalid prng key.") ∧
      (key.shape = [2] → key.dtype = DType.uint32 → ¬ (bitWidth = 32 ∨ bitWidth = 64) →
        randomBits key bitWidth shape = .error "requires 32- or 64-bit field width.") := by
  intro key bitWidth shape
  constructor
  · intro hbad
    rw [randomBits, if_pos hbad]
  · intro h1 h2 hbw
    rw [randomBits, if_neg (not_not_intro ⟨h1, h2⟩), if_pos hbw]

/-- C10 witness: a shape-(3,) key is rejected, and bit width 16 is
rejected on a well-formed key. -/
theorem random_bits_validates_inputs_witness :
    randomBits ⟨[3], DType.uint32, [0, 0, 0]⟩ 32 [1] =
      .error "_random_bits got invalid prng key." ∧
    randomBits zeroKeyArr 16 [1] =
      .error "requires 32- or 64-bit field width." :=
  ⟨(random_bits_validates_inputs ⟨[3], DType.uint32, [0, 0, 0]⟩ 32 [1]).1 (by simp),
   (random_bits_validates_inputs zeroKeyArr 16 [1]).2 rfl rfl (by decide)⟩

/-!
## `_uniform`

The float manipulation of `_uniform` is bit-level: shift the raw word,
OR in the bit pattern of `1.0`, bitcast, subtract `1.0`, then scale.
Bit patterns are modeled as `Nat` and the value of a finite IEEE
pattern as an exact rational.  The steps the claims rely on are exact
in IEEE arithmetic (the constructed float lies in `[1, 2)`, so
subtracting `1.0` is exact; the outer `max` is exact regardless of how
the scale product rounds), so scalar float arithmetic is modeled by
exact rational arithmetic.
-/

/-- Exponent bias of an IEEE format with `nbits` total bits and
`nmant` mantissa bits (127 for float32, 1023 for float64). -/
def fbias (nbits nmant : Nat) : Nat := 2 ^ (nbits - nmant - 2) - 1

/-- Bit pattern of the constant `1.0` (`onp.array(1., dtype).view(uint)`):
exponent field equal to the bias, zero mantissa. -/
def oneBits (nbits nmant : Nat) : Nat := fbias nbits nmant * 2 ^ nmant

/-- Exact rational value of a finite IEEE bit pattern: mantissa field,
exponent field and sign bit are extracted positionally; a zero
exponent field denotes a subnormal.  (Patterns with an all-ones
exponent field denote infinities/NaNs and never arise below.) -/
def floatVal (nbits nmant : Nat) (pat : Nat) : ℚ :=
  let frac := pat % 2 ^ nmant
  let e := (pat / 2 ^ nmant) % 2 ^ (nbits - nmant - 1)
  let sign := pat / 2 ^ (nbits - 1)
  let mag : ℚ :=
    if e = 0 then
      (2 : ℚ) ^ ((1 : ℤ) - (fbias nbits nmant : ℤ)) * ((frac : ℚ) / 2 ^ nmant)
    else
      (2 : ℚ) ^ ((e : ℤ) - (fbias nbits nmant : ℤ)) * (1 + (frac : ℚ) / 2 ^ nmant)
  if sign = 0 then mag else -mag

/-- The float-construction step of `_uniform` on one raw word, from
lines 266-269 of `jax/random.py`:
`bitcast(shift_right_logical(bits, nbits - nmant) | oneBits) - 1.0`. -/
def uniform01Word (nbits nmant : Nat) (w : Nat) : ℚ :=
  floatVal nbits nmant ((w >>> (nbits - nmant)) ||| oneBits nbits nmant) - 1

/-- The construction as the claim words it: *mask* the raw word
keeping only the low `nmant` bits, OR in the `1.0` pattern, bitcast,
subtract `1.0`. -/
def maskedUniform01Word (nbits nmant : Nat) (w : Nat) : ℚ :=
  floatVal nbits nmant ((w &&& (2 ^ nmant - 1)) ||| oneBits nbits nmant) - 1

/-- `_uniform(key, shape, dtype, minval, maxval)` elementwise: draw
raw bits of the float's width, build the `[0, 1)` float from each
word, and scale by `max(minval, v * (maxval - minval) + minval)`. -/
def uniformM (key : Nat × Nat) (numel nbits nmant : Nat) (minval maxval : ℚ) :
    Except String (List ℚ) :=
  (randomBitsCore key nbits numel).map fun bits =>
    bits.map fun w =>
      max minval (uniform01Word nbits nmant w * (maxval - minval) + minval)

/-- Helper: every word of the pair mix is reduced modulo `2^32`. -/
theorem threefryPair_lt (k1 k2 : Nat) (x : Nat × Nat) :
    (threefryPair k1 k2 x).1 < 2 ^ 32 ∧ (threefryPair k1 k2 x).2 < 2 ^ 32 := by
  simp only [threefryPair]
  exact ⟨Nat.mod_lt _ (by norm_num [W32]), Nat.mod_lt _ (by norm_num [W32])⟩

/-- Helper: every word of the hash output is below `2^32`. -/
theorem threefry2x32_words_lt (key : Nat × Nat) (count : List Nat) :
    ∀ w ∈ threefry2x32 key count, w < 2 ^ 32 := by
  intro w hw
  have hcore : ∀ (x0 x1 : List Nat), w ∈ threefryHalves key x0 x1 → w < 2 ^ 32 := by
    intro x0 x1 hmem
    simp only [threefryHalves, List.mem_append, List.mem_map] at hmem
    rcases hmem with ⟨p, ⟨q, -, hq⟩, hp⟩ | ⟨p, ⟨q, -, hq⟩, hp⟩ <;> subst hq <;> subst hp
    · exact (threefryPair_lt key.1 key.2 q).1
    · exact (threefryPair_lt key.1 key.2 q).2
  rw [threefry2x32] at hw
  by_cases h : count.length % 2 = 1
  · rw [if_pos h] at hw
    exact hcore _ _ ((List.dropLast_sublist _).subset hw)
  · rw [if_neg h] at hw
    exact hcore _ _ hw

/-- Helper: every word returned by `_random_bits` fits its bit width. -/
theorem randomBitsCore_words_lt (key : Nat × Nat) (bitWidth numel : Nat)
    (hbw : bitWidth = 32 ∨ bitWidth = 64) (bits : List Nat)
    (hok : randomBitsCore key bitWidth numel = .ok bits) :
    ∀ w ∈ bits, w < 2 ^ bitWidth := by
  intro w hw
  rw [randomBitsCore] at hok
  by_cases hg : 2 ^ 32 - 1 ≤ (bitWidth / 32) * numel
  · rw [if_pos hg] at hok
    exact Except.noConfusion hok
  · rw [if_neg hg] at hok
    rcases hbw with h | h <;> subst h
    · rw [if_neg (by omega)] at hok
      cases hok
      exact threefry2x32_words_lt _ _ w hw
    · rw [if_pos rfl] at hok
      cases hok
      simp only [List.mem_map] at hw
      obtain ⟨p, hp, hpw⟩ := hw
      obtain ⟨h1, h2⟩ := List.of_mem_zip hp
      have hb1 : p.1 < 2 ^ 32 :=
        threefry2x32_words_lt _ _ p.1 (List.take_subset _ _ h1)
      have hb2 : p.2 < 2 ^ 32 :=
        threefry2x32_words_lt _ _ p.2 (List.drop_subset _ _ h2)
      subst hpw
      apply Nat.or_lt_two_pow
      · rw [Nat.shiftLeft_eq]
        calc p.1 * 2 ^ 32 < 2 ^ 32 * 2 ^ 32 :=
              (Nat.mul_lt_mul_right (by norm_num)).mpr hb1
          _ = 2 ^ 64 := by norm_num
      · calc p.2 < 2 ^ 32 := hb2
          _ ≤ 2 ^ 64 := by norm_num

/-- Helper: the value of the pattern `m | oneBits` for a mantissa
value `m < 2^nmant` is exactly `1 + m / 2^nmant`. -/
theorem floatVal_one_plus (nbits nmant mv : Nat)
    (h3 : 3 ≤ nbits - nmant) (hm : mv < 2 ^ nmant) :
    floatVal nbits nmant (mv ||| oneBits nbits nmant) = 1 + (mv : ℚ) / 2 ^ nmant := by
  have hone : oneBits nbits nmant = 2 ^ nmant * fbias nbits nmant := by
    rw [oneBits, Nat.mul_comm]
  have hp : mv ||| oneBits nbits nmant = 2 ^ nmant * fbias nbits nmant + mv := by
    rw [hone, Nat.or_comm, ← Nat.mul_add_lt_is_or hm]
  have hBpos : 1 ≤ fbias nbits nmant := by
    rw [fbias]
    have : 2 ^ 1 ≤ 2 ^ (nbits - nmant - 2) :=
      Nat.pow_le_pow_right (by norm_num) (by omega)
    omega
  have hBlt : fbias nbits nmant < 2 ^ (nbits - nmant - 1) := by
    rw [fbias]
    have h2 : 2 ^ (nbits - nmant - 2) ≤ 2 ^ (nbits - nmant - 1) :=
      Nat.pow_le_pow_right (by norm_num) (by omega)
    have h1 : (1 : Nat) ≤ 2 ^ (nbits - nmant - 2) := Nat.one_le_two_pow
    omega
  have hfrac : (2 ^ nmant * fbias nbits nmant + mv) % 2 ^ nmant = mv := by
    rw [Nat.mul_add_mod, Nat.mod_eq_of_lt hm]
  have hdiv : (2 ^ nmant * fbias nbits nmant + mv) / 2 ^ nmant = fbias nbits nmant := by
    rw [Nat.mul_add_div (Nat.two_pow_pos nmant), Nat.div_eq_of_lt hm, Nat.add_zero]
  have hsign : (2 ^ nmant * fbias nbits nmant + mv) / 2 ^ (nbits - 1) = 0 := by
    apply Nat.div_eq_of_lt
    calc 2 ^ nmant * fbias nbits nmant + mv
        < 2 ^ nmant * (fbias nbits nmant + 1) := by
          rw [Nat.mul_add, Nat.mul_one]; omega
      _ = 2 ^ nmant * 2 ^ (nbits - nmant - 2) := by
          congr 1
          rw [fbias]
          have : (1 : Nat) ≤ 2 ^ (nbits - nmant - 2) := Nat.one_le_two_pow
          omega
      _ = 2 ^ (nbits - 2) := by rw [← pow_add]; congr 1; omega
      _ < 2 ^ (nbits - 1) := Nat.pow_lt_pow_right (by norm_num) (by omega)
  simp only [floatVal]
  rw [hp, hfrac, hdiv, Nat.mod_eq_of_lt hBlt, hsign]
  simp only [reduceIte]
  rw [if_neg (by omega)]
  rw [sub_self, zpow_zero, one_mul]

/-- Helper: the value of the constructed float pattern of `_uniform`
is exactly `1 + (w >> (nbits - nmant)) / 2^nmant`, so the subtraction
step yields `(w >> (nbits - nmant)) / 2^nmant`. -/
theorem uniform01Word_eq (nbits nmant w : Nat)
    (h3 : 3 ≤ nbits - nmant) (hw : w < 2 ^ nbits) :
    uniform01Word nbits nmant w = ((w >>> (nbits - nmant) : Nat) : ℚ) / 2 ^ nmant := by
  have hm : w >>> (nbits - nmant) < 2 ^ nmant := by
    rw [Nat.shiftRight_eq_div_pow]
    apply Nat.div_lt_of_lt_mul
    calc w < 2 ^ nbits := hw
      _ = 2 ^ (nbits - nmant) * 2 ^ nmant := by rw [← pow_add]; congr 1; omega
  rw [uniform01Word, floatVal_one_plus nbits nmant _ h3 hm]
  ring

/-- Helper: the constructed float lies in `[0, 1)`. -/
theorem uniform01Word_bounds (nbits nmant w : Nat)
    (h3 : 3 ≤ nbits - nmant) (hw : w < 2 ^ nbits) :
    0 ≤ uniform01Word nbits nmant w ∧ uniform01Word nbits nmant w < 1 := by
  rw [uniform01Word_eq nbits nmant w h3 hw]
  have hm : w >>> (nbits - nmant) < 2 ^ nmant := by
    rw [Nat.shiftRight_eq_div_pow]
    apply Nat.div_lt_of_lt_mul
    calc w < 2 ^ nbits := hw
      _ = 2 ^ (nbits - nmant) * 2 ^ nmant := by rw [← pow_add]; congr 1; omega
  constructor
  · positivity
  · rw [div_lt_one (by positivity)]
    exact_mod_cast hm

/-- C5 counterexample: the claim describes the construction as
*masking* the low mantissa bits of the raw word; the code instead
*shifts* the raw word right by `nbits - nmant`, keeping the high
mantissa bits.  The single raw word drawn from the zero key is
`1797259609`; the element `_uniform(key0, (1,), float32, 0, 1)`
produces from it is the shifted construction `3510272/2^23`, while the
claimed masked construction gives `2097497/2^23` — a different
float. -/
theorem uniform_mask_claim_false :
    randomBitsCore (0, 0) 32 1 = .ok [1797259609] ∧
    uniformM (0, 0) 1 32 23 0 1 =
      .ok [max 0 (uniform01Word 32 23 1797259609 * (1 - 0) + 0)] ∧
    uniform01Word 32 23 1797259609 ≠ maskedUniform01Word 32 23 1797259609 := by
  have hc : randomBitsCore (0, 0) 32 1 = .ok [1797259609] := by rfl
  refine ⟨hc, by rw [uniformM, hc]; rfl, ?_⟩
  have hshift : (1797259609 : Nat) >>> 9 = 3510272 := by
    rw [Nat.shiftRight_eq_div_pow]
  have hmask : (1797259609 : Nat) &&& 2 ^ 23 - 1 = 2097497 := by
    rw [Nat.and_pow_two_sub_one_eq_mod]
  have h1 : uniform01Word 32 23 1797259609 = (3510272 : ℚ) / 2 ^ 23 := by
    rw [uniform01Word_eq 32 23 1797259609 (by norm_num) (by norm_num)]
    rw [show (32 : Nat) - 23 = 9 from rfl, hshift]
    norm_num
  have h2 : maskedUniform01Word 32 23 1797259609 = (2097497 : ℚ) / 2 ^ 23 := by
    rw [maskedUniform01Word, hmask,
      floatVal_one_plus 32 23 2097497 (by norm_num) (by norm_num)]
    push_cast
    ring
  rw [h1, h2]
  intro h
  rw [div_eq_div_iff (by positivity) (by positivity)] at h
  norm_num at h

/-- C5 (amended): `_uniform` builds each element from the raw word by
keeping the *high* `mantissa_bits` of the word (logical right shift by
`nbits - nmant`), OR-ing in the bit pattern of `1.0`, bit-casting and
subtracting `1.0`, then scaling by
`max(minval, v * (maxval - minval) + minval)`.  Every element of the
general call is `>= minval`, and every element of
`uniform(key, shape, dtype, 0, 1)` lies in `[0, 1)`. -/
theorem uniform_spec (key : Nat × Nat) (numel nbits nmant : Nat)
    (minval maxval : ℚ)
    (hfmt : nbits = 32 ∧ nmant = 23 ∨ nbits = 64 ∧ nmant = 52) :
    ∀ out, uniformM key numel nbits nmant minval maxval = .ok out →
      (∃ bits, randomBitsCore key nbits numel = .ok bits ∧
        out = bits.map fun w =>
          max minval (uniform01Word nbits nmant w * (maxval - minval) + minval)) ∧
      (∀ v ∈ out, minval ≤ v) ∧
      (minval = 0 → maxval = 1 → ∀ v ∈ out, 0 ≤ v ∧ v < 1) := by
  intro out hout
  rw [uniformM] at hout
  obtain ⟨bits, hbits, hmap⟩ : ∃ bits, randomBitsCore key nbits numel = .ok bits ∧
      out = bits.map fun w =>
        max minval (uniform01Word nbits nmant w * (maxval - minval) + minval) := by
    cases hb : randomBitsCore key nbits numel with
    | error e => rw [hb] at hout; exact Except.noConfusion hout
    | ok bits =>
      rw [hb] at hout
      cases hout
      exact ⟨bits, rfl, rfl⟩
  refine ⟨⟨bits, hbits, hmap⟩, ?_, ?_⟩
  · intro v hv
    rw [hmap] at hv
    simp only [List.mem_map] at hv
    obtain ⟨w, -, hw⟩ := hv
    rw [← hw]
    exact le_max_left _ _
  · intro h0 h1 v hv
    subst h0; subst h1
    rw [hmap] at hv
    simp only [List.mem_map] at hv
    obtain ⟨w, hwmem, hw⟩ := hv
    have hwlt : w < 2 ^ nbits :=
      randomBitsCore_words_lt key nbits numel
        (by rcases hfmt with ⟨h, -⟩ | ⟨h, -⟩ <;> [exact Or.inl h; exact Or.inr h])
        bits hbits w hwmem
    have hb : 0 ≤ uniform01Word nbits nmant w ∧ uniform01Word nbits nmant w < 1 := by
      rcases hfmt with ⟨hn, hm⟩ | ⟨hn, hm⟩ <;> subst hn <;> subst hm <;>
        exact uniform01Word_bounds _ _ w (by norm_num) hwlt
    rw [← hw]
    have : uniform01Word nbits nmant w * (1 - 0) + 0 = uniform01Word nbits nmant w := by
      ring
    rw [this, max_eq_right hb.1]
    exact hb

/-- C5 witness: the single-element float32 draw from the zero key
succeeds and its element lies in `[0, 1)`. -/
theorem uniform_spec_witness :
    ∃ out, uniformM (0, 0) 1 32 23 0 1 = .ok out ∧ ∀ v ∈ out, 0 ≤ v ∧ v < 1 := by
  have hc : randomBitsCore (0, 0) 32 1 = .ok [1797259609] := by rfl
  have h : uniformM (0, 0) 1 32 23 0 1 =
      .ok ([1797259609].map fun w => max 0 (uniform01Word 32 23 w * (1 - 0) + 0)) := by
    rw [uniformM, hc]; rfl
  exact ⟨_, h,
    ((uniform_spec (0, 0) 1 32 23 0 1 (Or.inl ⟨rfl, rfl⟩)) _ h).2.2 rfl rfl⟩

/-!
## `_randint`

Signed dtype values are modeled as `Int` with explicit two's-complement
wrapping (`wrapS`); the unsigned arithmetic of the span/multiplier
computation is `Nat` with explicit `% 2^b` wherever `lax.mul`/`lax.add`
wrap.  XLA leaves integer remainder by zero implementation-defined, so
the model raises an explicit error when the span is zero.
-/

/-- Two's-complement wrap of an integer into a signed `b`-bit value
(the effect of `lax.convert_element_type` / wrapping dtype
arithmetic). -/
def wrapS (b : Nat) (x : Int) : Int :=
  let m := x % (2 ^ b : Int)
  if m < 2 ^ (b - 1) then m else m - 2 ^ b

/-- The multiplier chain of `_randint` (lines 324-327): start from
`2^16 mod span`, then square-and-reduce once (and a second time for
64-bit dtypes), the squaring wrapping modulo `2^b` as `lax.mul`
does. -/
def randintMultiplier (b span : Nat) : Nat :=
  let m1 := 2 ^ 16 % span
  let m2 := (m1 * m1) % 2 ^ b % span
  if b = 64 then (m2 * m2) % 2 ^ b % span else m2

/-- `_randint(key, shape, minval, maxval, dtype)` for a `b`-bit signed
dtype: convert the bounds to the dtype, force
`maxval = max(minval + 1, maxval)`, draw two raw bit arrays from the
two sub-keys of `split(key)`, convert the span to the unsigned dtype,
and combine `minval + ((higher % span) * multiplier + lower % span) % span`
with every multiplication/addition wrapping modulo `2^b`.  The final
`lax.add(minval, convert(offset, dtype))` is two's-complement, modeled
as `wrapS b (minval + offset)`. -/
def randintM (key : Nat × Nat) (numel : Nat) (minval maxval : Int) (b : Nat) :
    Except String (List Int) :=
  let minv := wrapS b minval
  let maxv := wrapS b maxval
  let maxv2 := max (wrapS b (minv + 1)) maxv
  let k1 := (splitKey key 2).getD 0 (0, 0)
  let k2 := (splitKey key 2).getD 1 (0, 0)
  match randomBitsCore k1 b numel, randomBitsCore k2 b numel with
  | .ok hi, .ok lo =>
    let span := ((maxv2 - minv) % (2 ^ b : Int)).toNat
    if span = 0 then
      .error "integer remainder by zero is implementation-defined"
    else
      let mult := randintMultiplier b span
      .ok ((hi.zip lo).map fun p =>
        wrapS b (minv +
          ((((p.1 % span) * mult) % 2 ^ b + p.2 % span) % 2 ^ b % span : Nat)))
  | .error e, _ => .error e
  | _, .error e => .error e

/-- Helper: `wrapS` is the identity on in-range signed values. -/
theorem wrapS_eq {b : Nat} (x : Int) (hb : 1 ≤ b)
    (h1 : -(2 ^ (b - 1)) ≤ x) (h2 : x < 2 ^ (b - 1)) : wrapS b x = x := by
  have hP : (0 : Int) < 2 ^ (b - 1) := by positivity
  have hpow : (2 ^ b : Int) = 2 ^ (b - 1) * 2 := by
    rw [← pow_succ]
    congr 1
    omega
  simp only [wrapS]
  by_cases hx : 0 ≤ x
  · rw [Int.emod_eq_of_lt hx (by omega), if_pos h2]
  · have hge : (0 : Int) ≤ x + 2 ^ b := by omega
    have hlt : x + 2 ^ b < 2 ^ b := by omega
    have hmod : (x + 2 ^ b * 1) % (2 ^ b : Int) = x % (2 ^ b : Int) :=
      Int.add_mul_emod_self_left x (2 ^ b) 1
    rw [mul_one] at hmod
    rw [← hmod, Int.emod_eq_of_lt hge hlt, if_neg (by omega)]
    omega

/-- Helper: a small draw request always succeeds and returns one word
per element. -/
theorem randomBitsCore_ok (key : Nat × Nat) (b numel : Nat)
    (hbw : b = 32 ∨ b = 64) (h : (b / 32) * numel < 2 ^ 32 - 1) :
    ∃ bits, randomBitsCore key b numel = .ok bits ∧ bits.length = numel := by
  rw [randomBitsCore]
  rw [if_neg (by omega)]
  rcases hbw with hb | hb <;> subst hb
  · rw [if_neg (by omega)]
    refine ⟨_, rfl, ?_⟩
    rw [threefry2x32_length, List.length_range]
    omega
  · rw [if_pos rfl]
    refine ⟨_, rfl, ?_⟩
    simp only [List.length_map, List.length_zip, List.length_take,
      List.length_drop, threefry2x32_length, List.length_range]
    omega

/-- C6 counterexample: the claim quantifies over *every* pair
`(minval, maxval)` including `maxval == minval`, but at
`minval = maxval = 2^31 - 1` (the int32 maximum) the coercion
`maxval = max(minval + 1, maxval)` overflows — `minval + 1` wraps to
`-2^31` — leaving `maxval == minval`, so the span is zero and the code
divides by zero (XLA: implementation-defined) instead of returning
`minval`.  And at `minval = 2^31 - 1 > maxval = 0` no error occurs but
the returned element is not `minval`, contradicting the claim that
every element equals `minval` when `maxval <= minval`. -/
theorem randint_degenerate_claim_false :
    randintM (0, 0) 1 2147483647 2147483647 32 =
      .error "integer remainder by zero is implementation-defined" ∧
    (randintM (0, 0) 1 2147483647 0 32).toOption ≠ some [(2147483647 : Int)] := by
  exact ⟨rfl, by decide⟩

/-- C6 (amended): for a `b`-bit signed dtype (`b` 32 or 64), in-range
bounds with `minval` strictly below the dtype maximum, and a
satisfiable draw size, `randint` does not raise: it coerces `maxval`
to `max(minval + 1, maxval)`, every returned element `e` satisfies
`minval ≤ e < max(minval + 1, maxval)`, and when `maxval ≤ minval`
every element equals `minval`. -/
theorem randint_spec (key : Nat × Nat) (numel : Nat) (minval maxval : Int)
    (b : Nat) (hb : b = 32 ∨ b = 64)
    (hcnt : (b / 32) * numel < 2 ^ 32 - 1)
    (hmin1 : -(2 ^ (b - 1)) ≤ minval) (hmin2 : minval < 2 ^ (b - 1) - 1)
    (hmax1 : -(2 ^ (b - 1)) ≤ maxval) (hmax2 : maxval < 2 ^ (b - 1)) :
    ∃ out, randintM key numel minval maxval b = .ok out ∧
      out.length = numel ∧
      ∀ e ∈ out, minval ≤ e ∧ e < max (minval + 1) maxval ∧
        (maxval ≤ minval → e = minval) := by
  have hb1 : 1 ≤ b := by omega
  have hP : (0 : Int) < 2 ^ (b - 1) := by positivity
  have hminv : wrapS b minval = minval := wrapS_eq minval hb1 hmin1 (by omega)
  have hmaxv : wrapS b maxval = maxval := wrapS_eq maxval hb1 hmax1 hmax2
  have hminv1 : wrapS b (minval + 1) = minval + 1 :=
    wrapS_eq (minval + 1) hb1 (by omega) (by omega)
  obtain ⟨hi, hhi, hhil⟩ :=
    randomBitsCore_ok ((splitKey key 2).getD 0 (0, 0)) b numel hb hcnt
  obtain ⟨lo, hlo, hlol⟩ :=
    randomBitsCore_ok ((splitKey key 2).getD 1 (0, 0)) b numel hb hcnt
  rw [randintM, hminv, hminv1, hmaxv, hhi, hlo]
  have hpow : (2 ^ b : Int) = 2 ^ (b - 1) * 2 := by
    rw [← pow_succ]
    congr 1
    omega
  set maxv2 : Int := max (minval + 1) maxval with hmaxv2
  have hm2lo : minval + 1 ≤ maxv2 := le_max_left _ _
  have hm2hi : maxv2 < 2 ^ (b - 1) := by
    rw [hmaxv2]
    exact max_lt (by omega) hmax2
  have hspanI : (maxv2 - minval) % (2 ^ b : Int) = maxv2 - minval :=
    Int.emod_eq_of_lt (by omega) (by omega)
  rw [hspanI]
  have hspan0 : ¬ (maxv2 - minval).toNat = 0 := by omega
  dsimp only
  rw [if_neg hspan0]
  refine ⟨_, rfl, ?_, ?_⟩
  · simp only [List.length_map, List.length_zip, hhil, hlol]
    omega
  · intro e he
    simp only [List.mem_map] at he
    obtain ⟨p, -, hpe⟩ := he
    set span := (maxv2 - minval).toNat with hspandef
    set off : Nat :=
      (((p.1 % span) * randintMultiplier b span) % 2 ^ b + p.2 % span) % 2 ^ b % span
      with hoffdef
    have hofflt : off < span := Nat.mod_lt _ (by omega)
    have hoffI : (off : Int) < maxv2 - minval := by
      have h1 : (off : Int) < (span : Int) := by exact_mod_cast hofflt
      have h2 : (span : Int) = maxv2 - minval := by
        rw [hspandef]
        omega
      omega
    have he' : e = minval + (off : Int) := by
      rw [← hpe]
      exact wrapS_eq _ hb1 (by omega) (by omega)
    refine ⟨by omega, by omega, ?_⟩
    intro hdeg
    have : maxv2 = minval + 1 := by
      rw [hmaxv2]
      exact max_eq_left (by omega)
    have hspan1 : span = 1 := by
      rw [hspandef, this]
      omega
    have : off = 0 := by
      rw [hoffdef, hspan1]
      omega
    omega

/-- C6 witness: `randint(key0, (1,), 5, 5, int32)` succeeds and every
element equals 5. -/
theorem randint_spec_witness :
    ∃ out, randintM (0, 0) 1 5 5 32 = .ok out ∧ out.length = 1 ∧
      ∀ e ∈ out, 5 ≤ e ∧ e < max (5 + 1) 5 ∧ ((5 : Int) ≤ 5 → e = 5) :=
  randint_spec (0, 0) 1 5 5 32 (Or.inl rfl) (by norm_num) (by norm_num)
    (by norm_num) (by norm_num) (by norm_num)

/-- C7: the claim (and the code comment at lines 321-323) say the
squared-and-reduced multiplier reaches `2^nbits mod span`; but the
squaring is performed in the native unsigned width, so for spans above
`2^16` it overflows: at `span = 65537` the code computes
`multiplier = (2^16)^2 mod 2^32 mod 65537 = 0` while
`2^32 mod 65537 = 1`.  The higher bits are then multiplied by zero,
contradicting the code's own stated intent. -/
theorem randint_multiplier_overflow :
    randintMultiplier 32 65537 = 0 ∧ 2 ^ 32 % 65537 = 1 ∧
    randintMultiplier 32 65537 ≠ 2 ^ 32 % 65537 := by
  decide

/-!
## `_gamma_one`

The Marsaglia-Tsang rejection loop.  The scalar draws (`normal`,
`uniform`) and the transcendental functions (`log`, `pow`) are
real-valued and outside exact modeling, so they are supplied as oracle
parameters over an abstract key type; values are exact rationals.  The
loop itself (`lax.while_loop`) has no fuel bound in the source; it is
modeled with explicit fuel, returning `none` when the fuel runs out.
The squeeze constant `0.0331` is `331/10000` exactly.
-/

/-- The collaborators `_gamma_one` consumes: key splitting, scalar
normal/uniform draws, `lax.log` and `lax.pow`. -/
structure GammaOracle (K : Type) where
  split2 : K → K × K
  split3 : K → K × K × K
  normalF : K → ℚ
  uniformF : K → ℚ
  logF : ℚ → ℚ
  powF : ℚ → ℚ → ℚ

/-- The loop state `(key, X, V, U)` of `_gamma_one`. -/
structure GState (K : Type) where
  key : K
  X : ℚ
  V : ℚ
  U : ℚ

/-- `_cond_fn`: continue while
`V <= 0 OR (U >= 1 - 0.0331*X^2 AND log(U) >= X/2 + d*(1 - V + log(V)))`. -/
def gammaCond {K : Type} (O : GammaOracle K) (d : ℚ) (s : GState K) : Bool :=
  decide (s.V ≤ 0) ||
    (decide (1 - 331 / 10000 * (s.X * s.X) ≤ s.U) &&
     decide (s.X * (1 / 2) + d * ((1 - s.V) + O.logF s.V) ≤ O.logF s.U))

/-- `_body_fn`: split three ways, draw `x ~ Normal`, set
`v = 1 + c*x`, `X = x^2`, `V = v^3`, draw `U ~ Uniform`. -/
def gammaBody {K : Type} (O : GammaOracle K) (c : ℚ) (s : GState K) : GState K :=
  let ks := O.split3 s.key
  let x := O.normalF ks.2.1
  let v := 1 + x * c
  { key := ks.1, X := x * x, V := (v * v) * v, U := O.uniformF ks.2.2 }

/-- `lax.while_loop(_cond_fn, _body_fn, init)` with explicit fuel. -/
def gammaLoop {K : Type} (O : GammaOracle K) (d c : ℚ) :
    Nat → GState K → Option (GState K)
  | 0, _ => none
  | fuel + 1, s =>
    if gammaCond O d s then gammaLoop O d c fuel (gammaBody O c s) else some s

/-- `onp.finfo(float32).tiny = 2^-126`, the smallest positive *normal*
float32 value. -/
def tiny32 : ℚ := 1 / 2 ^ 126

/-- `onp.finfo(float64).tiny = 2^-1022`, the smallest positive
*normal* float64 value. -/
def tiny64 : ℚ := 1 / 2 ^ 1022

/-- `d = alpha - 1/3` after the `alpha < 1` boost of `alpha` to
`alpha + 1`. -/
def gammaD (alpha : ℚ) : ℚ := (if 1 ≤ alpha then alpha else alpha + 1) - 1 / 3

/-- The `alpha < 1` boost factor `Uniform()^(1/alpha)` (1 when
`alpha >= 1`). -/
def gammaBoost {K : Type} (O : GammaOracle K) (key : K) (alpha : ℚ) : ℚ :=
  if 1 ≤ alpha then 1 else O.powF (O.uniformF (O.split2 key).2) (1 / alpha)

/-- `c = (1/3) / sqrt(d)`, written `lax.pow(d, 0.5)` in the source. -/
def gammaC {K : Type} (O : GammaOracle K) (alpha : ℚ) : ℚ :=
  1 / 3 / O.powF (gammaD alpha) (1 / 2)

/-- `_gamma_one(key, alpha)`: split off the boost subkey, run the
rejection loop from `(key, X=0, V=-1, U=0)`, and on exit return
`z = d * V * boost`, substituting `finfo(dtype).tiny` when `z == 0`. -/
def gammaOne {K : Type} (O : GammaOracle K) (tiny : ℚ) (fuel : Nat)
    (key : K) (alpha : ℚ) : Option ℚ :=
  match gammaLoop O (gammaD alpha) (gammaC O alpha) fuel
      ⟨(O.split2 key).1, 0, -1, 0⟩ with
  | none => none
  | some s =>
    let z := gammaD alpha * s.V * gammaBoost O key alpha
    some (if z = 0 then tiny else z)

/-- Helper: the initial state `V = -1, X = U = 0` satisfies the loop
condition, for every `d` and every oracle, so the body runs at least
once. -/
theorem gammaCond_init {K : Type} (O : GammaOracle K) (d : ℚ) (key : K) :
    gammaCond O d ⟨key, 0, -1, 0⟩ = true := by
  simp only [gammaCond, Bool.or_eq_true, decide_eq_true_eq]
  left
  norm_num

/-- The degenerate oracle used for concrete instances: all draws and
transcendental functions return 0. -/
def trivOracle : GammaOracle Unit where
  split2 := fun _ => ((), ())
  split3 := fun _ => ((), (), ())
  normalF := fun _ => 0
  uniformF := fun _ => 0
  logF := fun _ => 0
  powF := fun _ _ => 0

/-- C8 counterexample: on an exit with `z = 0` the code substitutes
`onp.finfo(dtype).tiny`, the smallest positive *normal* value
(`2^-126` for float32) — not the smallest positive *representable*
value as the claim states: the subnormal pattern `1` is a positive
representable float32 strictly below it (`2^-149`). -/
theorem gamma_tiny_claim_false :
    gammaOne trivOracle tiny32 2 () (1 / 2) = some tiny32 ∧
    floatVal 32 23 1 = 1 / 2 ^ 149 ∧
    0 < floatVal 32 23 1 ∧ floatVal 32 23 1 < tiny32 := by
  have hbody : ∀ c : ℚ, gammaBody trivOracle c ⟨(), 0, -1, 0⟩ = ⟨(), 0, 1, 0⟩ := by
    intro c
    simp only [gammaBody, trivOracle]
    norm_num
  have hcond2 : ∀ d : ℚ, gammaCond trivOracle d ⟨(), 0, 1, 0⟩ = false := by
    intro d
    simp only [gammaCond, trivOracle, Bool.or_eq_false_iff, Bool.and_eq_false_iff,
      decide_eq_false_iff_not]
    norm_num
  have hfv : floatVal 32 23 1 = 1 / 2 ^ 149 := by
    have h1 : (1 : Nat) % 2 ^ 23 = 1 := by norm_num
    have h2 : ((1 : Nat) / 2 ^ 23) % 2 ^ (32 - 23 - 1) = 0 := by norm_num
    have h3 : (1 : Nat) / 2 ^ (32 - 1) = 0 := by norm_num
    simp only [floatVal, h1, h2, h3, if_pos rfl, fbias]
    norm_num
  refine ⟨?_, hfv, ?_, ?_⟩
  · rw [gammaOne]
    rw [show (trivOracle.split2 ()).1 = () from rfl]
    rw [gammaLoop, gammaCond_init, if_pos rfl, hbody, gammaLoop, hcond2]
    rw [if_neg (by simp)]
    dsimp only
    have hz : gammaD (1 / 2) * (1 : ℚ) * gammaBoost trivOracle () (1 / 2) = 0 := by
      rw [gammaBoost, if_neg (by norm_num)]
      exact mul_zero _
    rw [if_pos hz]
  · rw [hfv]; positivity
  · rw [hfv, tiny32]
    rw [div_lt_div_iff₀ (by positivity) (by positivity)]
    norm_num

/-- C8 (amended): the per-element gamma sampler loops with state
`(key, X, V, U)` from `V = -1, X = U = 0`, a state that satisfies the
continuation condition for every `d` (forcing at least one iteration);
the continuation condition is exactly
`V <= 0 OR (U >= 1 - 0.0331*X^2 AND log(U) >= X/2 + d*(1 - V + log(V)))`;
on exit it computes `z = d * V * boost` and, whenever `z` equals 0
exactly, returns the smallest positive *normal* value of the dtype
(`onp.finfo(dtype).tiny`) instead — so gamma never returns exactly
zero. -/
theorem gamma_one_spec {K : Type} (O : GammaOracle K) (tiny : ℚ) (fuel : Nat)
    (key : K) (alpha : ℚ) (htiny : tiny = tiny32 ∨ tiny = tiny64) :
    gammaCond O (gammaD alpha) ⟨(O.split2 key).1, 0, -1, 0⟩ = true ∧
    (∀ d s, gammaCond O d s = true ↔
      (s.V ≤ 0 ∨ (1 - 331 / 10000 * (s.X * s.X) ≤ s.U ∧
        s.X * (1 / 2) + d * ((1 - s.V) + O.logF s.V) ≤ O.logF s.U))) ∧
    (∀ s, gammaLoop O (gammaD alpha) (gammaC O alpha) fuel
        ⟨(O.split2 key).1, 0, -1, 0⟩ = some s →
      gammaOne O tiny fuel key alpha =
        some (if gammaD alpha * s.V * gammaBoost O key alpha = 0 then tiny
              else gammaD alpha * s.V * gammaBoost O key alpha)) ∧
    (∀ r, gammaOne O tiny fuel key alpha = some r → r ≠ 0) := by
  have htiny0 : tiny ≠ 0 := by
    rcases htiny with h | h <;> subst h <;> norm_num [tiny32, tiny64]
  refine ⟨gammaCond_init O (gammaD alpha) _, ?_, ?_, ?_⟩
  · intro d s
    simp only [gammaCond, Bool.or_eq_true, Bool.and_eq_true, decide_eq_true_eq]
  · intro s hs
    rw [gammaOne, hs]
  · intro r hr
    rw [gammaOne] at hr
    cases hloop : gammaLoop O (gammaD alpha) (gammaC O alpha) fuel
        ⟨(O.split2 key).1, 0, -1, 0⟩ with
    | none => rw [hloop] at hr; exact Option.noConfusion hr
    | some s =>
      rw [hloop] at hr
      simp only [Option.some.injEq] at hr
      by_cases hz : gammaD alpha * s.V * gammaBoost O key alpha = 0
      · rw [if_pos hz] at hr
        rw [← hr]
        exact htiny0
      · rw [if_neg hz] at hr
        rw [← hr]
        exact hz

/-- C8 witness: with the degenerate oracle, unit key, `alpha = 2` and
`tiny = finfo(float32).tiny`, the initial state satisfies the loop
condition and any produced sample is nonzero. -/
theorem gamma_one_spec_witness :
    gammaCond trivOracle (gammaD 2) ⟨((trivOracle.split2 ()).1 : Unit), 0, -1, 0⟩ = true ∧
    ∀ r, gammaOne trivOracle tiny32 2 () 2 = some r → r ≠ 0 := by
  have h := gamma_one_spec trivOracle tiny32 2 () 2 (Or.inl rfl)
  exact ⟨h.1, h.2.2.2⟩

/-!
## `_shuffle`

The array is modeled along the shuffled axis as a flat list.  The
round count is computed host-side in the source as
`int(onp.ceil(3 * onp.log(x.size) / onp.log(2^32 - 1)))` in double
precision; it is modeled by its exact-real value, which for `n >= 1`
is the least `k` with `(2^32 - 1)^k >= n^3` (proved against the
`Real.log` formula below).  For `n = 0`, `onp.log(0) = -inf` and
`int(-inf)` raises `OverflowError`, modeled as `none`.
-/

theorem exists_rounds (n : Nat) : ∃ k, n ^ 3 ≤ (2 ^ 32 - 1) ^ k := by
  refine ⟨n ^ 3, le_of_lt (lt_of_lt_of_le (Nat.lt_two_pow _) ?_)⟩
  exact Nat.pow_le_pow_left (by norm_num) _

/-- `num_rounds = int(ceil(3 * log(x.size) / log(2^32 - 1)))`, modeled
exactly: `none` at size 0 (the source raises `OverflowError` there),
otherwise the least `k` with `(2^32-1)^k >= n^3`. -/
def numRounds (n : Nat) : Option Nat :=
  if n = 0 then none else some (Nat.find (exists_rounds n))

/-- `lax.sort_key_val(sort_keys, x, axis)`: a stable key-value sort;
the sorted keys are discarded and the permuted values kept. -/
def sortKeyVal {α : Type} (keys : List Nat) (vals : List α) : List α :=
  ((keys.zip vals).mergeSort fun a b => decide (a.1 ≤ b.1)).map Prod.snd

/-- One round of `_shuffle`: split the key (`key, subkey = split(key)`),
draw 32-bit sort keys shaped like the data, and sort the data by
them. -/
def shuffleStep {α : Type} (st : (Nat × Nat) × List α) :
    Option ((Nat × Nat) × List α) :=
  let ks := splitKey st.1 2
  match randomBitsCore (ks.getD 1 (0, 0)) 32 st.2.length with
  | .ok bits => some (ks.getD 0 (0, 0), sortKeyVal bits st.2)
  | .error _ => none

/-- The `num_rounds` iterations of the round body. -/
def shuffleIter {α : Type} : Nat → ((Nat × Nat) × List α) →
    Option ((Nat × Nat) × List α)
  | 0, st => some st
  | r + 1, st =>
    match shuffleStep st with
    | some st2 => shuffleIter r st2
    | none => none

/-- `_shuffle(key, x, axis)` on the flattened shuffled axis. -/
def shuffleM {α : Type} (key : Nat × Nat) (x : List α) : Option (List α) :=
  match numRounds x.length with
  | none => none
  | some rounds =>
    match shuffleIter rounds (key, x) with
    | some st => some st.2
    | none => none

/-- Helper: a keyed sort returns a permutation of the values when
there are at least as many keys as values. -/
theorem sortKeyVal_perm {α : Type} (keys : List Nat) (vals : List α)
    (h : vals.length ≤ keys.length) : (sortKeyVal keys vals).Perm vals := by
  have hperm := List.mergeSort_perm (keys.zip vals) fun a b => decide (a.1 ≤ b.1)
  have hmap := hperm.map Prod.snd
  rw [List.map_snd_zip keys vals h] at hmap
  exact hmap

/-- Helper: every round succeeds on data below the entropy limit and
permutes the data. -/
theorem shuffleIter_ok {α : Type} :
    ∀ (r : Nat) (k : Nat × Nat) (v : List α), v.length < 2 ^ 32 - 1 →
      ∃ st, shuffleIter r (k, v) = some st ∧ st.2.Perm v
  | 0, k, v, _ => ⟨(k, v), rfl, List.Perm.refl v⟩
  | r + 1, k, v, h => by
    obtain ⟨bits, hb, hbl⟩ :=
      randomBitsCore_ok ((splitKey k 2).getD 1 (0, 0)) 32 v.length
        (Or.inl rfl) (by omega)
    have hsv : (sortKeyVal bits v).Perm v := sortKeyVal_perm bits v (by omega)
    obtain ⟨st, hst, hp⟩ :=
      shuffleIter_ok r ((splitKey k 2).getD 0 (0, 0)) (sortKeyVal bits v)
        (by rw [hsv.length_eq]; omega)
    refine ⟨st, ?_, hp.trans hsv⟩
    show (match shuffleStep (k, v) with
          | some st2 => shuffleIter r st2
          | none => none) = some st
    simp only [shuffleStep]
    rw [hb]
    exact hst

/-- Helper: for `n >= 1` the modeled round count is exactly the
`ceil(3 * ln n / ln(2^32 - 1))` of the spec formula. -/
theorem numRounds_eq_ceil (n : Nat) (hn : 1 ≤ n) (k : Nat)
    (hk : numRounds n = some k) :
    (k : ℤ) = ⌈(3 : ℝ) * Real.log n / Real.log ((2 ^ 32 - 1 : ℕ) : ℝ)⌉ := by
  rw [numRounds, if_neg (by omega)] at hk
  simp only [Option.some.injEq] at hk
  subst hk
  have hu1 : (1 : ℝ) < ((2 ^ 32 - 1 : ℕ) : ℝ) := by norm_num
  have hlogu : 0 < Real.log ((2 ^ 32 - 1 : ℕ) : ℝ) := Real.log_pos hu1
  have hn0 : (0 : ℝ) < (n : ℝ) := by exact_mod_cast hn
  have hnpos : (0 : ℝ) < (n : ℝ) ^ 3 := by positivity
  symm
  rw [Int.ceil_eq_iff]
  constructor
  · rcases Nat.eq_zero_or_pos (Nat.find (exists_rounds n)) with h0 | hpos
    · rw [h0]
      have hln : 0 ≤ Real.log n := Real.log_nonneg (by exact_mod_cast hn)
      have hnn : 0 ≤ (3 : ℝ) * Real.log n / Real.log ((2 ^ 32 - 1 : ℕ) : ℝ) := by
        positivity
      push_cast at hnn ⊢
      linarith
    · have hmin := Nat.find_min (exists_rounds n)
        (show Nat.find (exists_rounds n) - 1 < Nat.find (exists_rounds n) by omega)
      push_neg at hmin
      have hcast : ((2 ^ 32 - 1 : ℕ) : ℝ) ^ (Nat.find (exists_rounds n) - 1) <
          (n : ℝ) ^ 3 := by exact_mod_cast hmin
      have hlog := Real.log_lt_log (by positivity) hcast
      rw [Real.log_pow, Real.log_pow] at hlog
      have hlt : ((Nat.find (exists_rounds n) - 1 : ℕ) : ℝ) <
          3 * Real.log n / Real.log ((2 ^ 32 - 1 : ℕ) : ℝ) := by
        rw [lt_div_iff₀ hlogu]
        exact hlog
      have hc : ((Nat.find (exists_rounds n) - 1 : ℕ) : ℝ) =
          ((Nat.find (exists_rounds n) : ℤ) : ℝ) - 1 := by
        push_cast [Nat.cast_sub hpos]
        ring
      rw [hc] at hlt
      exact hlt
  · have hspec := Nat.find_spec (exists_rounds n)
    have hcast : (n : ℝ) ^ 3 ≤
        ((2 ^ 32 - 1 : ℕ) : ℝ) ^ Nat.find (exists_rounds n) := by
      exact_mod_cast hspec
    have hlog := Real.log_le_log hnpos hcast
    rw [Real.log_pow, Real.log_pow] at hlog
    rw [div_le_iff₀ hlogu]
    push_cast at hlog ⊢
    linarith

/-- C9 counterexample: `shuffle` on an empty array does not return a
permutation — the host-side round count
`int(onp.ceil(3 * onp.log(0) / onp.log(2^32-1)))` evaluates
`int(-inf)` and raises `OverflowError`, modeled as `none`. -/
theorem shuffle_empty_claim_false :
    shuffleM (0, 0) ([] : List Nat) = none := rfl

/-- C9 (amended): for every key and every *nonempty* array (of size
within the single-call entropy limit), `shuffle` is deterministic and
returns a permutation of its input (same multiset, each element
exactly once), using `ceil(3 * ln(size) / ln(2^32 - 1))` rounds, each
round splitting the key, drawing 32-bit sort keys shaped like the
data, and stably sorting the data by them. -/
theorem shuffle_spec {α : Type} (key : Nat × Nat) (x : List α)
    (hx : x ≠ []) (hlen : x.length < 2 ^ 32 - 1) :
    shuffleM key x = shuffleM key x ∧
    (∃ k, numRounds x.length = some k ∧
      (k : ℤ) = ⌈(3 : ℝ) * Real.log x.length / Real.log ((2 ^ 32 - 1 : ℕ) : ℝ)⌉) ∧
    ∃ y, shuffleM key x = some y ∧ y.Perm x := by
  have hne : ¬ x.length = 0 := by
    intro h
    exact hx (List.length_eq_zero.mp h)
  have hnr : numRounds x.length = some (Nat.find (exists_rounds x.length)) := by
    rw [numRounds, if_neg hne]
  refine ⟨rfl, ⟨_, hnr, numRounds_eq_ceil x.length (by omega) _ hnr⟩, ?_⟩
  obtain ⟨st, hst, hp⟩ :=
    shuffleIter_ok (Nat.find (exists_rounds x.length)) key x hlen
  refine ⟨st.2, ?_, hp⟩
  rw [shuffleM, hnr]
  dsimp only
  rw [hst]

/-- C9 witness: shuffling `[1, 2, 3]` with the zero key succeeds and
returns a permutation of `[1, 2, 3]`. -/
theorem shuffle_spec_witness :
    ∃ y, shuffleM (0, 0) [1, 2, 3] = some y ∧ y.Perm [1, 2, 3] :=
  (shuffle_spec (0, 0) [1, 2, 3] (by simp) (by norm_num)).2.2

end JaxRandom
